import Mathlib

/-!
Verification of the promkit core against its specification.

The definitions below are a shallow embedding of the Rust sources:
`promkit/src/grapheme.rs` (styled grapheme sequences: `find_all`,
`replace`, `replace_range`, `highlight`, `matrixify`),
`promkit-widgets/src/text_editor.rs` (the sentinel-bearing text editor),
`promkit-widgets/src/checkbox/checkbox.rs` (the checkbox widget) and
`src/core/json/node.rs` (the collapsible JSON tree).

Rust `usize` arithmetic is embedded as `Nat`; `saturating_sub` is exactly
`Nat` subtraction.  `VecDeque` and `Vec` are embedded as `List`.
-/

namespace Promkit

/-- Shallow embedding of crossterm's `ContentStyle`: an opaque attribute
bundle (foreground, background, attribute bitset).  The algorithms under
verification only ever store or copy whole styles. -/
structure ContentStyle where
  foreground : Option Nat := none
  background : Option Nat := none
  attributes : Nat := 0
deriving DecidableEq, Repr

instance : Inhabited ContentStyle := ⟨{}⟩

/-- Modelled from the spec: the display-width table of the external
Unicode-width crate used by `StyledGrapheme` ("width ∈ {0,1,2} is derived
from the character (zero-width marks, half-width, wide)"; control
characters get `None`, which `unwrap_or(0)` turns into 0).  The table
below reproduces this shape: 0 for control characters and combining
marks, 2 for the major wide ranges (CJK, Hangul, emoji), 1 otherwise. -/
def charWidth (c : Char) : Nat :=
  let v := c.val.toNat
  if v < 0x20 then 0
  else if v = 0x7f then 0
  else if 0x300 ≤ v ∧ v ≤ 0x36f then 0
  else if (0x1100 ≤ v ∧ v ≤ 0x115f) ∨ (0x2e80 ≤ v ∧ v ≤ 0x303e) ∨
          (0x3041 ≤ v ∧ v ≤ 0x33ff) ∨ (0x3400 ≤ v ∧ v ≤ 0x4dbf) ∨
          (0x4e00 ≤ v ∧ v ≤ 0x9fff) ∨ (0xac00 ≤ v ∧ v ≤ 0xd7a3) ∨
          (0xf900 ≤ v ∧ v ≤ 0xfaff) ∨ (0xfe30 ≤ v ∧ v ≤ 0xfe4f) ∨
          (0xff00 ≤ v ∧ v ≤ 0xff60) ∨ (0xffe0 ≤ v ∧ v ≤ 0xffe6) ∨
          (0x1f300 ≤ v ∧ v ≤ 0x1f64f) ∨ (0x1f900 ≤ v ∧ v ≤ 0x1f9ff) ∨
          (0x20000 ≤ v ∧ v ≤ 0x2fffd) ∨ (0x30000 ≤ v ∧ v ≤ 0x3fffd) then 2
  else 1

/-- `StyledGrapheme` from `promkit/src/grapheme.rs`: a single character
with its display width and styling. -/
structure StyledGrapheme where
  ch : Char
  width : Nat
  style : ContentStyle
deriving DecidableEq, Repr

/-- `impl From<char> for StyledGrapheme` / `StyledGrapheme::new` with the
default style: the width is derived from the character. -/
def StyledGrapheme.fromChar (c : Char) : StyledGrapheme :=
  ⟨c, charWidth c, {}⟩

/-- `StyledGrapheme::apply_style`. -/
def StyledGrapheme.applyStyle (g : StyledGrapheme) (st : ContentStyle) : StyledGrapheme :=
  { g with style := st }

/-- `StyledGraphemes` from `promkit/src/grapheme.rs`: a `VecDeque` of
styled graphemes, embedded as a list. -/
abbrev StyledGraphemes := List StyledGrapheme

/-- `StyledGraphemes::from::<&str>` (via `from_str` with the default
style): one styled grapheme per character of the string. -/
def StyledGraphemes.fromString (s : String) : StyledGraphemes :=
  s.data.map StyledGrapheme.fromChar

/-- `StyledGraphemes::chars`. -/
def StyledGraphemes.chars (s : StyledGraphemes) : List Char :=
  s.map StyledGrapheme.ch

/-- `StyledGraphemes::widths`: total display width. -/
def StyledGraphemes.widths (s : StyledGraphemes) : Nat :=
  (s.map StyledGrapheme.width).sum

/-- The inner loop of `StyledGraphemes::find_all`: does the query match
at position `p`?  The loop compares `self.0[pos + i].ch` with the query
characters; the `while` guard keeps every index in bounds. -/
def StyledGraphemes.matchAt (s : StyledGraphemes) (q : List Char) (p : Nat) : Bool :=
  (List.range q.length).all fun i =>
    match s[p + i]?, q[i]? with
    | some g, some c => g.ch == c
    | _, _ => false

/-- The `while pos + query_len <= self.0.len()` loop of `find_all`:
scan from `pos`, record each matching position, advance by one whether or
not the position matched.  The loop advances `pos` towards `s.length`,
so it runs at most `s.length + 1 - pos` times; that bound is the `fuel`
argument (structural recursion standing in for the `while` loop). -/
def StyledGraphemes.findAllFrom (s : StyledGraphemes) (q : List Char) :
    Nat → Nat → List Nat
  | 0, _ => []
  | fuel + 1, pos =>
    if pos + q.length ≤ s.length then
      if s.matchAt q pos then pos :: s.findAllFrom q fuel (pos + 1)
      else s.findAllFrom q fuel (pos + 1)
    else []

/-- `StyledGraphemes::find_all`: all start positions of the query, with
an early return of the empty vector for the empty query. -/
def StyledGraphemes.findAll (s : StyledGraphemes) (q : List Char) : List Nat :=
  if q.isEmpty then [] else s.findAllFrom q (s.length + 1) 0

/-- `StyledGraphemes::replace_range`: remove `stop - start` elements at
`start` (each `VecDeque::remove(start)` is a no-op once the index is out
of bounds, so the removal is exactly `take start ++ drop stop`), then
splice the replacement (styled with the default style) in at `start`.
(`VecDeque::insert` would panic were `start` beyond the shrunk deque;
no caller below reaches that case.) -/
def StyledGraphemes.replaceRange (s : StyledGraphemes) (start stop : Nat)
    (repl : String) : StyledGraphemes :=
  let removed := s.take start ++ s.drop (start + (stop - start))
  removed.take start ++ StyledGraphemes.fromString repl ++ removed.drop start

/-- One iteration of the rewrite loop of `StyledGraphemes::replace`:
adjust the recorded position by the accumulated length difference
(`p + offset` when the replacement is longer, `p.saturating_sub(offset)`
otherwise), rewrite `from_len` graphemes there, and grow the offset by
`from_len.abs_diff(to_len)`. -/
def replaceStep (fromLen toLen : Nat) (t : String) (acc : StyledGraphemes × Nat)
    (p : Nat) : StyledGraphemes × Nat :=
  let adjusted := if toLen > fromLen then p + acc.2 else p - acc.2
  (acc.1.replaceRange adjusted (adjusted + fromLen) t,
    acc.2 + (max fromLen toLen - min fromLen toLen))

/-- `StyledGraphemes::replace`: collect all positions of `f` up front
with `find_all`, then rewrite each one through `replaceStep`. -/
def StyledGraphemes.replace (s : StyledGraphemes) (f t : String) : StyledGraphemes :=
  ((s.findAll f.data).foldl (replaceStep f.data.length t.data.length t) (s, 0)).1

/-- `StyledGraphemes::apply_style_at` (and the `get_mut` pattern inside
`highlight`): restyle the grapheme at one index, no-op out of bounds. -/
def applyStyleAt (st : ContentStyle) : StyledGraphemes → Nat → StyledGraphemes
  | [], _ => []
  | g :: rest, 0 => g.applyStyle st :: rest
  | g :: rest, n + 1 => g :: applyStyleAt st rest n

/-- `StyledGraphemes::highlight`: `Some self` for the empty query, `None`
when the query has no occurrence, otherwise the style is applied at every
index of every matched range. -/
def StyledGraphemes.highlight (s : StyledGraphemes) (q : String)
    (st : ContentStyle) : Option StyledGraphemes :=
  if q.data.isEmpty then some s
  else
    let indices := s.findAll q.data
    if indices.isEmpty then none
    else some (indices.foldl
      (fun acc start =>
        (List.range' start q.data.length).foldl (fun acc2 i => applyStyleAt st acc2 i) acc)
      s)

/-- One iteration of the row-building loop of
`StyledGraphemes::matrixify`: flush the current row when the next
grapheme would overflow `width`, and append the grapheme only when it
fits a row by itself (`width >= styled.width`). -/
def wrapStep (width : Nat) (acc : List StyledGraphemes × StyledGraphemes)
    (styled : StyledGrapheme) : List StyledGraphemes × StyledGraphemes :=
  let widthWithNext := acc.2.widths + styled.width
  let flushed := if acc.2 ≠ [] ∧ width < widthWithNext
    then (acc.1 ++ [acc.2], ([] : StyledGraphemes)) else acc
  if width ≥ styled.width then (flushed.1, flushed.2 ++ [styled]) else flushed

/-- The row-building first half of `StyledGraphemes::matrixify`: fold
the sequence left to right through `wrapStep`, then push the final
non-empty row. -/
def matrixifyWrap (width : Nat) (s : StyledGraphemes) : List StyledGraphemes :=
  let final := s.foldl (wrapStep width) ([], [])
  if final.2 ≠ [] then final.1 ++ [final.2] else final.1

/-- The trimming `while` loop of `matrixify`: as long as more rows than
`height` survive, pop from the front while the offset is positive
(decrementing it), then pop from the back.  Every iteration shortens the
row list by one, so the loop runs at most `all.length` times; that bound
is the `fuel` argument (structural recursion standing in for the
`while` loop). -/
def trimRows (height : Nat) : Nat → List StyledGraphemes → Nat → List StyledGraphemes × Nat
  | 0, all, offset => (all, offset)
  | fuel + 1, all, offset =>
    if all.length > height ∧ offset < all.length then
      if offset > 0 then trimRows height fuel all.tail (offset - 1)
      else trimRows height fuel all.dropLast offset
    else (all, offset)

/-- `StyledGraphemes::matrixify`: wrap into rows, return early on the
empty row list, clamp the offset to `len - 1`, then run the trimming
loop. -/
def StyledGraphemes.matrixify (s : StyledGraphemes) (width height offset : Nat) :
    List StyledGraphemes × Nat :=
  let all := matrixifyWrap width s
  if all = [] then ([], 0)
  else trimRows height all.length all (min offset (all.length - 1))

/-- The leaf payload of a JSON node (`serde_json::Value` restricted to
scalars, as stored in `JsonNode::Leaf`): null, booleans, numbers,
strings. -/
inductive JsonValue where
  | null : JsonValue
  | bool (b : Bool) : JsonValue
  | num (n : Int) : JsonValue
  | str (s : String) : JsonValue
deriving DecidableEq, Repr

/-- `JsonPathSegment` from `src/core/json/node.rs`. -/
inductive JsonPathSegment where
  | key (s : String) : JsonPathSegment
  | index (n : Nat) : JsonPathSegment
deriving DecidableEq, Repr

/-- `JsonPath`. -/
abbrev JsonPath := List JsonPathSegment

/-- `JsonSyntaxKind` from `src/core/json/node.rs`: the row descriptors
emitted by `flatten_visibles`. -/
inductive JsonSyntaxKind where
  | mapStart (key : Option String) (path : JsonPath) (indent : Nat)
  | mapEnd (isLast : Bool) (indent : Nat)
  | mapFolded (key : Option String) (path : JsonPath) (isLast : Bool) (indent : Nat)
  | mapEntry (kv : String × JsonValue) (path : JsonPath) (isLast : Bool) (indent : Nat)
  | arrayStart (key : Option String) (path : JsonPath) (indent : Nat)
  | arrayEnd (isLast : Bool) (indent : Nat)
  | arrayFolded (key : Option String) (path : JsonPath) (isLast : Bool) (indent : Nat)
  | arrayEntry (v : JsonValue) (path : JsonPath) (isLast : Bool) (indent : Nat)
deriving DecidableEq, Repr

/-- `JsonNode` from `src/core/json/node.rs`.  The `IndexMap` of an object
is embedded as an insertion-ordered association list. -/
inductive JsonNode where
  | object (children : List (String × JsonNode)) (childrenVisible : Bool)
  | array (children : List JsonNode) (childrenVisible : Bool)
  | leaf (v : JsonValue)

/-- `IndexMap::get`: first value stored under the key. -/
def findAssoc? (cs : List (String × JsonNode)) (s : String) : Option JsonNode :=
  match cs with
  | [] => none
  | (k, v) :: rest => if k = s then some v else findAssoc? rest s

/-- `IndexMap::get_mut` followed by an in-place update, functionally:
rewrite the value stored under the key (first occurrence), keeping the
order. -/
def modifyAssoc (cs : List (String × JsonNode)) (s : String)
    (f : JsonNode → JsonNode) : List (String × JsonNode) :=
  match cs with
  | [] => []
  | (k, v) :: rest => if k = s then (k, f v) :: rest else (k, v) :: modifyAssoc rest s f

/-- The visibility flip performed by `JsonNode::toggle` once `get_mut`
has resolved the path: containers flip `children_visible`, leaves are
untouched. -/
def JsonNode.flip : JsonNode → JsonNode
  | .object cs v => .object cs (!v)
  | .array cs v => .array cs (!v)
  | .leaf v => .leaf v

/-- `JsonNode::toggle`, functionally: walk the path exactly as `get_mut`
does (a `Key` segment requires an object, an `Index` segment requires an
array, otherwise the lookup fails and the whole call is a no-op) and
flip the resolved node. -/
def JsonNode.toggle : JsonNode → JsonPath → JsonNode
  | n, [] => n.flip
  | .object cs v, .key s :: rest =>
    match findAssoc? cs s with
    | some _ => .object (modifyAssoc cs s (fun c => c.toggle rest)) v
    | none => .object cs v
  | .array cs v, .index i :: rest =>
    if h : i < cs.length then .array (cs.set i ((cs.get ⟨i, h⟩).toggle rest)) v
    else .array cs v
  | n, _ :: _ => n

/-- The `key:` field computed by `flatten_visibles` for container and
folded rows: the last path segment when it is a key. -/
def keyOfPath (path : JsonPath) : Option String :=
  path.getLast?.bind fun seg =>
    match seg with
    | .key s => some s
    | _ => none

mutual

/-- The recursive `dfs` of `JsonNode::flatten_visibles`. -/
def JsonNode.dfs : JsonNode → JsonPath → Bool → Nat → List JsonSyntaxKind
  | .object children childrenVisible, path, isLast, indent =>
    if childrenVisible then
      JsonSyntaxKind.mapStart (keyOfPath path) path indent ::
        (JsonNode.dfsObject children path indent ++ [JsonSyntaxKind.mapEnd isLast indent])
    else [JsonSyntaxKind.mapFolded (keyOfPath path) path isLast indent]
  | .array children childrenVisible, path, isLast, indent =>
    if childrenVisible then
      JsonSyntaxKind.arrayStart (keyOfPath path) path indent ::
        (JsonNode.dfsArray children path indent 0 ++ [JsonSyntaxKind.arrayEnd isLast indent])
    else [JsonSyntaxKind.arrayFolded (keyOfPath path) path isLast indent]
  | .leaf v, path, isLast, indent =>
    match keyOfPath path with
    | some k => [JsonSyntaxKind.mapEntry (k, v) path isLast indent]
    | none => [JsonSyntaxKind.arrayEntry v path isLast indent]

/-- The loop over an object's children inside `dfs`: each child is
flattened at `indent + 1` with its key appended to the path; the last
child gets `is_last = true`. -/
def JsonNode.dfsObject : List (String × JsonNode) → JsonPath → Nat → List JsonSyntaxKind
  | [], _, _ => []
  | (k, c) :: rest, path, indent =>
    c.dfs (path ++ [.key k]) rest.isEmpty (indent + 1) ++
      JsonNode.dfsObject rest path indent

/-- The loop over an array's children inside `dfs`: child `i` is
flattened at `indent + 1` with `Index i` appended to the path. -/
def JsonNode.dfsArray : List JsonNode → JsonPath → Nat → Nat → List JsonSyntaxKind
  | [], _, _, _ => []
  | c :: rest, path, indent, i =>
    c.dfs (path ++ [.index i]) rest.isEmpty (indent + 1) ++
      JsonNode.dfsArray rest path indent (i + 1)

end

/-- `JsonNode::flatten_visibles`: the root call uses the empty path,
`is_last = true` and indent 0. -/
def JsonNode.flattenVisibles (n : JsonNode) : List JsonSyntaxKind :=
  n.dfs [] true 0

/-- Modelled from the spec: `Cursor<T>` of the promkit-core cursor module
(not among the sources; only `text_editor.rs` and `checkbox.rs` use it).
Spec: "A pair `(contents: sequence of T, position: index)` with a flag
cyclic"; the constructor stores the pair as given. -/
structure Cursor (α : Type) where
  contents : α
  position : Nat
  cyclic : Bool

/-- Modelled from the spec: `Cursor::move_to(i)` sets the position. -/
def Cursor.moveTo (c : Cursor α) (i : Nat) : Cursor α :=
  { c with position := i }

/-- `TextEditor` from `promkit-widgets/src/text_editor.rs`: a cursor over
a styled grapheme sequence that always ends in a sentinel space.
`TextEditor::position` delegates to the cursor, i.e. to the `position`
field. -/
abbrev TextEditor := Cursor StyledGraphemes

/-- `Rust String::len` is the UTF-8 byte length; `TextEditor::new` and
`TextEditor::replace` compute the cursor position from it. -/
def utf8Len (s : String) : Nat :=
  (s.data.map Char.utf8Size).sum

/-- `TextEditor::new`: append the sentinel space, place the cursor at
`buf.len() - 1` — the byte length of the buffer minus one. -/
def TextEditor.new (s : String) : TextEditor :=
  let buf := s ++ " "
  ⟨StyledGraphemes.fromString buf, utf8Len buf - 1, false⟩

/-- `TextEditor::default`: sentinel only, cursor at 0. -/
def TextEditor.mkDefault : TextEditor :=
  ⟨StyledGraphemes.fromString " ", 0, false⟩

/-- `TextEditor::text`. -/
def TextEditor.text (e : TextEditor) : StyledGraphemes :=
  e.contents

/-- `TextEditor::text_without_cursor`: pop the trailing sentinel. -/
def TextEditor.textWithoutCursor (e : TextEditor) : StyledGraphemes :=
  e.contents.dropLast

/-- `TextEditor::replace`: rebuild the whole editor exactly as `new`
does. -/
def TextEditor.replace (e : TextEditor) (new : String) : TextEditor :=
  let _ := e
  let buf := new ++ " "
  ⟨StyledGraphemes.fromString buf, utf8Len buf - 1, false⟩

/-- `VecDeque::drain(a..b)` inside `erase_to_position`: remove the
graphemes at indices `a..b` (in bounds for every call below). -/
def drainRange (s : StyledGraphemes) (a b : Nat) : StyledGraphemes :=
  s.take a ++ s.drop b

/-- `TextEditor::erase_to_position`: drain between the cursor and `pos`,
moving the cursor only when erasing backwards. -/
def TextEditor.eraseToPosition (e : TextEditor) (pos : Nat) : TextEditor :=
  let current := e.position
  if pos > current then { e with contents := drainRange e.contents current pos }
  else Cursor.moveTo { e with contents := drainRange e.contents pos current } pos

/-- `TextEditor::find_previous_nearest_index`: the greatest index
`i < position - 1` (saturating) holding a word-break character, plus
one; `0` when there is none. -/
def TextEditor.findPreviousNearestIndex (e : TextEditor) (wordBreakChars : List Char) : Nat :=
  let current := e.position
  ((((e.text.chars.enum.filter fun ic => ic.1 < current - 1).reverse.find?
      fun ic => ic.2 ∈ wordBreakChars).map fun ic => ic.1 + 1).getD 0)

/-- `TextEditor::erase_to_previous_nearest`. -/
def TextEditor.eraseToPreviousNearest (e : TextEditor) (wordBreakChars : List Char) : TextEditor :=
  e.eraseToPosition (e.findPreviousNearestIndex wordBreakChars)

/-- Modelled from the spec: `Listbox` of `promkit-widgets` (not among the
sources) — "An ordered sequence of styled grapheme sequences plus an
integer cursor position". -/
structure Listbox where
  items : List StyledGraphemes
  position : Nat

/-- `Checkbox` from `promkit-widgets/src/checkbox/checkbox.rs`: a listbox
plus the picked index set (`HashSet<usize>`, embedded as a `Finset`). -/
structure Checkbox where
  listbox : Listbox
  picked : Finset Nat

/-- `Checkbox::toggle`: remove the cursor position from the picked set
when present, insert it otherwise. -/
def Checkbox.toggle (c : Checkbox) : Checkbox :=
  if c.listbox.position ∈ c.picked then
    { c with picked := c.picked.erase c.listbox.position }
  else
    { c with picked := insert c.listbox.position c.picked }

/-- The JSON document `{"a":{"b":1},"c":[2,3]}` of scenario S4, as a
`JsonNode` (objects keep source order, all containers start visible). -/
def s4Doc : JsonNode :=
  .object
    [("a", .object [("b", .leaf (.num 1))] true),
     ("c", .array [.leaf (.num 2), .leaf (.num 3)] true)]
    true

/-- The text editor of scenario S5: buffer `"koko momo jojo "` with the
cursor at position 11 (built like the `new_with_position` test helper of
`text_editor.rs`). -/
def s5Editor : TextEditor :=
  ⟨StyledGraphemes.fromString "koko momo jojo ", 11, false⟩

/-- The trimming behaviour the spec text ascribes to `matrixify`, taken
at its words: rows beyond `height` are discarded from the front while
the (unclamped) offset is positive, then from the back, and the offset
reduced by the number of discarded front rows is returned. -/
def matrixifySpecTrim (s : StyledGraphemes) (width height offset : Nat) :
    List StyledGraphemes × Nat :=
  let all := matrixifyWrap width s
  let f := min offset (all.length - height)
  ((all.drop f).take height, offset - f)

/-- The last element of `ps` whose length-`k` window covers index `i`
(the occurrence whose rewrite lands last on `i` during `replace`). -/
def lastCover (ps : List Nat) (k i : Nat) : Option Nat :=
  (ps.filter fun p => decide (p ≤ i ∧ i < p + k)).getLast?

/-- The scroll behaviour of `matrixify` in closed form: the offset is
first clamped to `row count - 1`; then `f` rows fall off the front
(`f` is the clamped offset, capped by how many rows are in excess of
`height`), the remainder is cut to `height` rows from the back, and the
clamped offset less the front discards is returned. -/
def matrixifyScroll (s : StyledGraphemes) (width height offset : Nat) :
    List StyledGraphemes × Nat :=
  let all := matrixifyWrap width s
  let clamped := min offset (all.length - 1)
  let f := min clamped (all.length - height)
  ((all.drop f).take height, clamped - f)

end Promkit

namespace Promkit

/-- C2: for every text editor, `replace(s)` rebuilds the buffer so that
`text_without_cursor() = s`; but the cursor position is computed from the
UTF-8 byte length of `s`, not its grapheme count, contradicting both the
claim and the method's own doc ("positions the cursor at the end"): for
`s = "é"` the position is 2 while `s` has a single grapheme. -/
theorem textEditor_replace_position_bug :
    (TextEditor.replace TextEditor.mkDefault "é").textWithoutCursor =
        StyledGraphemes.fromString "é" ∧
      (TextEditor.replace TextEditor.mkDefault "é").position = 2 ∧
      "é".data.length = 1 ∧ (2 : Nat) ≠ 1 := by
  refine ⟨by decide, by decide, by decide, by decide⟩

/-- C6: toggling path `["a"]` in `{"a":{"b":1},"c":[2,3]}` makes
`flatten_visibles` emit exactly the seven rows of scenario S4, in
order. -/
theorem s4_flatten_after_toggle :
    (s4Doc.toggle [.key "a"]).flattenVisibles =
      [JsonSyntaxKind.mapStart none [] 0,
       JsonSyntaxKind.mapFolded (some "a") [.key "a"] false 1,
       JsonSyntaxKind.arrayStart (some "c") [.key "c"] 1,
       JsonSyntaxKind.arrayEntry (.num 2) [.key "c", .index 0] false 2,
       JsonSyntaxKind.arrayEntry (.num 3) [.key "c", .index 1] true 2,
       JsonSyntaxKind.arrayEnd true 1,
       JsonSyntaxKind.mapEnd true 0] := by
  decide

/-- C8 (counterexample): on the S5 editor, `erase_to_previous_nearest`
with word-break set `{' '}` does not leave the buffer
`"koko momo jo "` as claimed. -/
theorem s5_word_erase_not_as_claimed :
    (TextEditor.eraseToPreviousNearest s5Editor [' ']).text ≠
      StyledGraphemes.fromString "koko momo jo " := by
  decide

/-- C8 (amended): `erase_to_previous_nearest` targets index 10 (just
after the break at 9) and drains `10..11`, so the buffer becomes
`"koko momo ojo "` (only the `'j'` at index 10 is removed) and the
cursor rests at 10. -/
theorem s5_word_erase :
    (TextEditor.eraseToPreviousNearest s5Editor [' ']).text =
        StyledGraphemes.fromString "koko momo ojo " ∧
      (TextEditor.eraseToPreviousNearest s5Editor [' ']).position = 10 := by
  refine ⟨by decide, by decide⟩

theorem findAllFrom_mem (s : StyledGraphemes) (q : List Char) :
    ∀ fuel pos p : Nat, s.length + 1 ≤ fuel + pos →
      (p ∈ s.findAllFrom q fuel pos ↔
        pos ≤ p ∧ p + q.length ≤ s.length ∧ s.matchAt q p = true) := by
  intro fuel
  induction fuel with
  | zero =>
    intro pos p hn
    simp only [StyledGraphemes.findAllFrom, List.not_mem_nil, false_iff]
    rintro ⟨h1, h2, -⟩
    omega
  | succ fuel ih =>
    intro pos p hn
    simp only [StyledGraphemes.findAllFrom]
    by_cases hin : pos + q.length ≤ s.length
    · have hrec := ih (pos + 1) p (by omega)
      by_cases hm : s.matchAt q pos
      · simp only [hin, hm, if_pos, List.mem_cons, hrec]
        constructor
        · rintro (rfl | ⟨h1, h2, h3⟩)
          · exact ⟨Nat.le_refl _, hin, hm⟩
          · exact ⟨by omega, h2, h3⟩
        · rintro ⟨h1, h2, h3⟩
          rcases Nat.eq_or_lt_of_le h1 with rfl | hlt
          · exact Or.inl rfl
          · exact Or.inr ⟨hlt, h2, h3⟩
      · simp only [hin, hm, if_pos, if_neg, Bool.false_eq_true, not_false_iff, hrec]
        constructor
        · rintro ⟨h1, h2, h3⟩
          exact ⟨by omega, h2, h3⟩
        · rintro ⟨h1, h2, h3⟩
          refine ⟨?_, h2, h3⟩
          rcases Nat.eq_or_lt_of_le h1 with rfl | hlt
          · exact absurd h3 (by simpa using hm)
          · omega
    · simp only [hin, if_neg, if_false, List.not_mem_nil, false_iff, not_false_iff]
      rintro ⟨h1, h2, -⟩
      omega

theorem findAllFrom_pairwise (s : StyledGraphemes) (q : List Char) :
    ∀ fuel pos : Nat, s.length + 1 ≤ fuel + pos →
      List.Pairwise (· < ·) (s.findAllFrom q fuel pos) := by
  intro fuel
  induction fuel with
  | zero =>
    intro pos hn
    simp [StyledGraphemes.findAllFrom]
  | succ fuel ih =>
    intro pos hn
    simp only [StyledGraphemes.findAllFrom]
    by_cases hin : pos + q.length ≤ s.length
    · have hrec := ih (pos + 1) (by omega)
      by_cases hm : s.matchAt q pos
      · simp only [hin, hm, if_pos]
        refine List.Pairwise.cons ?_ hrec
        intro x hx
        have := (findAllFrom_mem s q fuel (pos + 1) x (by omega)).mp hx
        omega
      · simpa only [hin, hm, if_pos, if_neg, Bool.false_eq_true, not_false_iff] using hrec
    · simp [hin]

theorem matchAt_iff (s : StyledGraphemes) (q : List Char) (p : Nat)
    (hin : p + q.length ≤ s.length) :
    s.matchAt q p = true ↔
      ∀ i, i < q.length → (s[p + i]?).map StyledGrapheme.ch = q[i]? := by
  unfold StyledGraphemes.matchAt
  rw [List.all_eq_true]
  constructor
  · intro h i hi
    have hh := h i (List.mem_range.mpr hi)
    have hp : p + i < s.length := by omega
    rw [List.getElem?_eq_getElem hp, List.getElem?_eq_getElem hi] at hh ⊢
    simpa using hh
  · intro h i hi
    rw [List.mem_range] at hi
    have hh := h i hi
    have hp : p + i < s.length := by omega
    rw [List.getElem?_eq_getElem hp, List.getElem?_eq_getElem hi] at hh ⊢
    simp only [Option.map_some', Option.some.injEq] at hh
    simp [hh]

/-- C4: `find_all(q)` returns exactly the positions `p` with
`∀ i < |q|, self[p+i].ch = q[i]` (and the whole window in bounds), in
strictly increasing order — the scan advances by one even after a match,
so overlapping occurrences are all retained — and the empty query yields
the empty vector. -/
theorem findAll_spec (s : StyledGraphemes) (q : List Char) :
    s.findAll [] = [] ∧
      List.Pairwise (· < ·) (s.findAll q) ∧
      (q ≠ [] → ∀ p, p ∈ s.findAll q ↔
        p + q.length ≤ s.length ∧
          ∀ i, i < q.length → (s[p + i]?).map StyledGrapheme.ch = q[i]?) := by
  refine ⟨by simp [StyledGraphemes.findAll], ?_, ?_⟩
  · unfold StyledGraphemes.findAll
    split
    · exact List.Pairwise.nil
    · exact findAllFrom_pairwise s q (s.length + 1) 0 (by omega)
  · intro hq p
    unfold StyledGraphemes.findAll
    rw [if_neg (by simpa [List.isEmpty_iff] using hq)]
    rw [findAllFrom_mem s q (s.length + 1) 0 p (by omega)]
    constructor
    · rintro ⟨-, h2, h3⟩
      exact ⟨h2, (matchAt_iff s q p h2).mp h3⟩
    · rintro ⟨h2, h3⟩
      exact ⟨Nat.zero_le _, h2, (matchAt_iff s q p h2).mpr h3⟩

/-- C4 witness: in `"ababa"` the query `"aba"` matches at position 2 —
an occurrence overlapping the one at 0 — and the characterization of
`findAll_spec` certifies it. -/
theorem findAll_spec_witness :
    2 ∈ (StyledGraphemes.fromString "ababa").findAll "aba".data :=
  ((findAll_spec (StyledGraphemes.fromString "ababa") "aba".data).2.2
    (by decide) 2).mpr (by decide)

theorem set_get_self {α : Type} :
    ∀ (l : List α) (i : Nat) (h : i < l.length), l.set i (l.get ⟨i, h⟩) = l := by
  intro l
  induction l with
  | nil => intro i h; simp at h
  | cons a t ih =>
    intro i h
    cases i with
    | zero => simp
    | succ j => simpa using ih j (by simpa using h)

theorem flip_flip (n : JsonNode) : n.flip.flip = n := by
  cases n <;> simp [JsonNode.flip]

theorem findAssoc?_modifyAssoc (cs : List (String × JsonNode)) (s : String)
    (f : JsonNode → JsonNode) :
    findAssoc? (modifyAssoc cs s f) s = (findAssoc? cs s).map f := by
  induction cs with
  | nil => simp [findAssoc?, modifyAssoc]
  | cons kv rest ih =>
    obtain ⟨k, v⟩ := kv
    by_cases h : k = s
    · simp [findAssoc?, modifyAssoc, h]
    · simp [findAssoc?, modifyAssoc, h, ih]

theorem modifyAssoc_modifyAssoc (cs : List (String × JsonNode)) (s : String)
    (f g : JsonNode → JsonNode) :
    modifyAssoc (modifyAssoc cs s f) s g = modifyAssoc cs s (fun v => g (f v)) := by
  induction cs with
  | nil => simp [modifyAssoc]
  | cons kv rest ih =>
    obtain ⟨k, v⟩ := kv
    by_cases h : k = s
    · simp [modifyAssoc, h]
    · simp [modifyAssoc, h, ih]

theorem modifyAssoc_eq_self (cs : List (String × JsonNode)) (s : String)
    (f : JsonNode → JsonNode) (hf : ∀ v, f v = v) : modifyAssoc cs s f = cs := by
  induction cs with
  | nil => simp [modifyAssoc]
  | cons kv rest ih =>
    obtain ⟨k, v⟩ := kv
    by_cases h : k = s
    · simp [modifyAssoc, h, hf]
    · simp [modifyAssoc, h, ih]

theorem toggle_toggle (p : JsonPath) : ∀ n : JsonNode, (n.toggle p).toggle p = n := by
  induction p with
  | nil =>
    intro n
    simpa [JsonNode.toggle] using flip_flip n
  | cons seg rest ih =>
    intro n
    cases n with
    | object cs v =>
      cases seg with
      | key s =>
        cases h : findAssoc? cs s with
        | none => simp [JsonNode.toggle, h]
        | some c =>
          have h2 : findAssoc? (modifyAssoc cs s (fun c => c.toggle rest)) s =
              some ((JsonNode.toggle c rest)) := by
            rw [findAssoc?_modifyAssoc, h, Option.map_some']
          simp only [JsonNode.toggle, h, h2]
          rw [modifyAssoc_modifyAssoc, modifyAssoc_eq_self]
          intro w
          exact ih w
      | index i => simp [JsonNode.toggle]
    | array cs v =>
      cases seg with
      | key s => simp [JsonNode.toggle]
      | index i =>
        by_cases h : i < cs.length
        · simp only [JsonNode.toggle, dif_pos h, List.get_eq_getElem]
          split
          · simp only [List.getElem_set_self, List.set_set]
            rw [ih]
            have hs := set_get_self cs i h
            simp only [List.get_eq_getElem] at hs
            exact congrArg (fun l => JsonNode.array l v) hs
          · next hcon => exact absurd (by simpa using h) hcon
        · simp [JsonNode.toggle, h]
    | leaf w => simp [JsonNode.toggle]

/-- C5: toggling any path twice in succession restores the tree itself,
so `flatten_visibles` emits the same row sequence as before the two
`toggle` calls. -/
theorem flatten_unchanged_after_double_toggle (n : JsonNode) (p : JsonPath) :
    ((n.toggle p).toggle p).flattenVisibles = n.flattenVisibles := by
  rw [toggle_toggle p n]

theorem applyStyleAt_getElem? (st : ContentStyle) :
    ∀ (s : StyledGraphemes) (i j : Nat),
      (applyStyleAt st s i)[j]? =
        if j = i then (s[j]?).map (fun g => g.applyStyle st) else s[j]? := by
  intro s
  induction s with
  | nil => intro i j; simp [applyStyleAt]
  | cons g rest ih =>
    intro i j
    cases i with
    | zero =>
      cases j with
      | zero => simp [applyStyleAt]
      | succ j' => simp [applyStyleAt]
    | succ i' =>
      cases j with
      | zero => simp [applyStyleAt]
      | succ j' => simpa [applyStyleAt] using ih i' j'

theorem foldl_applyStyleAt_getElem? (st : ContentStyle) :
    ∀ (ps : List Nat) (s : StyledGraphemes) (j : Nat),
      (ps.foldl (applyStyleAt st) s)[j]? =
        if j ∈ ps then (s[j]?).map (fun g => g.applyStyle st) else s[j]? := by
  intro ps
  induction ps with
  | nil => intro s j; simp
  | cons p rest ih =>
    intro s j
    rw [List.foldl_cons, ih, applyStyleAt_getElem?]
    by_cases hj : j ∈ rest
    · rw [if_pos hj, if_pos (List.mem_cons_of_mem p hj)]
      by_cases hp : j = p
      · rw [if_pos hp]
        cases s[j]? <;> simp [StyledGrapheme.applyStyle]
      · rw [if_neg hp]
    · rw [if_neg hj]
      by_cases hp : j = p
      · rw [if_pos hp, if_pos (by simp [hp])]
      · rw [if_neg hp, if_neg (by simp [hp, hj])]

theorem foldl_foldl_eq_foldl_bind {α β γ : Type} (g : β → List γ) (f : α → γ → α) :
    ∀ (l : List β) (init : α),
      l.foldl (fun a b => (g b).foldl f a) init = (l.flatMap g).foldl f init := by
  intro l
  induction l with
  | nil => intro init; simp
  | cons b rest ih => intro init; simp [List.foldl_append, ih]

/-- C9: `highlight(q, style)` returns `None` exactly when the query is
non-empty and has no occurrence; the empty query returns the sequence
unchanged in `Some`; and any returned sequence is the input with the
style applied at precisely the indices covered by some matched range. -/
theorem highlight_spec (s : StyledGraphemes) (q : String) (st : ContentStyle) :
    (s.highlight q st = none ↔ q.data ≠ [] ∧ s.findAll q.data = []) ∧
      (q.data = [] → s.highlight q st = some s) ∧
      (∀ r, s.highlight q st = some r → ∀ j : Nat,
        r[j]? =
          if ∃ p ∈ s.findAll q.data, p ≤ j ∧ j < p + q.data.length
          then (s[j]?).map (fun g => g.applyStyle st) else s[j]?) := by
  refine ⟨?_, ?_, ?_⟩
  · unfold StyledGraphemes.highlight
    split
    · next he => simp [List.isEmpty_iff.mp he]
    · next he =>
      have hne : q.data ≠ [] := by simpa [List.isEmpty_iff] using he
      dsimp only
      split
      · next hm => simp [List.isEmpty_iff.mp hm, hne]
      · next hm =>
        have hmne : s.findAll q.data ≠ [] := by simpa [List.isEmpty_iff] using hm
        simp [hne, hmne]
  · intro he
    unfold StyledGraphemes.highlight
    simp [he]
  · intro r hr j
    unfold StyledGraphemes.highlight at hr
    by_cases he : q.data.isEmpty
    · rw [if_pos he, Option.some_inj] at hr
      subst hr
      have : s.findAll q.data = [] := by
        unfold StyledGraphemes.findAll
        simp [he]
      rw [if_neg]
      · simp [this]
    · rw [if_neg (by simpa using he)] at hr
      by_cases hm : (s.findAll q.data).isEmpty
      · rw [if_pos hm] at hr
        exact absurd hr (by simp)
      · rw [if_neg (by simpa using hm), Option.some_inj] at hr
        subst hr
        rw [foldl_foldl_eq_foldl_bind (fun p => List.range' p q.data.length)
          (applyStyleAt st) (s.findAll q.data) s]
        rw [foldl_applyStyleAt_getElem?]
        congr 1
        simp only [List.mem_flatMap, List.mem_range']
        apply propext
        constructor
        · rintro ⟨p, hp, i, hi, rfl⟩
          exact ⟨p, hp, by omega, by omega⟩
        · rintro ⟨p, hp, h1, h2⟩
          exact ⟨p, hp, j - p, by omega, by omega⟩

/-- C9 witness: the empty query returns the sequence unchanged, and for
`"aba".highlight("b", style)` the characterization pins index 1 to the
restyled grapheme. -/
theorem highlight_spec_witness :
    (StyledGraphemes.fromString "abc").highlight "" {} =
        some (StyledGraphemes.fromString "abc") ∧
      (([⟨'a', 1, {}⟩, ⟨'b', 1, ⟨none, none, 5⟩⟩, ⟨'a', 1, {}⟩] : StyledGraphemes))[1]? =
        some ⟨'b', 1, ⟨none, none, 5⟩⟩ := by
  refine ⟨(highlight_spec (StyledGraphemes.fromString "abc") "" {}).2.1 rfl, ?_⟩
  have h := (highlight_spec (StyledGraphemes.fromString "aba") "b" ⟨none, none, 5⟩).2.2
    [⟨'a', 1, {}⟩, ⟨'b', 1, ⟨none, none, 5⟩⟩, ⟨'a', 1, {}⟩] (by decide) 1
  rw [h]
  decide

theorem wrapStep_flatten (width : Nat) (all : List StyledGraphemes)
    (row : StyledGraphemes) (g : StyledGrapheme) :
    (wrapStep width (all, row) g).1.flatten ++ (wrapStep width (all, row) g).2 =
      all.flatten ++ row ++ (if g.width ≤ width then [g] else []) := by
  unfold wrapStep
  by_cases hfl : row ≠ [] ∧ width < StyledGraphemes.widths row + g.width
  · by_cases hfit : width ≥ g.width
    · simp [hfl, hfit, Nat.le_of_lt_succ]
    · have : ¬ g.width ≤ width := by omega
      simp [hfl, hfit, this]
  · by_cases hfit : width ≥ g.width
    · simp [hfl, hfit, ge_iff_le.mp hfit, List.append_assoc]
    · have : ¬ g.width ≤ width := by omega
      simp [hfl, hfit, this]

theorem wrap_foldl_flatten (width : Nat) :
    ∀ (s : StyledGraphemes) (all : List StyledGraphemes) (row : StyledGraphemes),
      (s.foldl (wrapStep width) (all, row)).1.flatten ++
          (s.foldl (wrapStep width) (all, row)).2 =
        all.flatten ++ row ++ s.filter (fun g => g.width ≤ width) := by
  intro s
  induction s with
  | nil => intro all row; simp
  | cons g rest ih =>
    intro all row
    have ih' := ih (wrapStep width (all, row) g).1 (wrapStep width (all, row) g).2
    rw [Prod.mk.eta] at ih'
    rw [List.foldl_cons, ih', wrapStep_flatten width all row g]
    by_cases hg : g.width ≤ width
    · simp [hg, List.filter_cons]
    · simp [hg, List.filter_cons]

theorem matrixifyWrap_flatten (width : Nat) (s : StyledGraphemes) :
    (matrixifyWrap width s).flatten = s.filter (fun g => g.width ≤ width) := by
  unfold matrixifyWrap
  have h := wrap_foldl_flatten width s [] []
  simp only [List.flatten_nil, List.nil_append] at h
  dsimp only
  split
  · next hne => simpa using h
  · next hne =>
    rw [Decidable.not_not] at hne
    rw [hne] at h
    simpa using h

theorem wrapStep_fst_cases (width : Nat) (all : List StyledGraphemes)
    (row : StyledGraphemes) (g : StyledGrapheme) :
    (wrapStep width (all, row) g).1 = all ∨
      ((wrapStep width (all, row) g).1 = all ++ [row] ∧ row ≠ []) := by
  unfold wrapStep
  dsimp only
  by_cases hfl : row ≠ [] ∧ width < StyledGraphemes.widths row + g.width
  · rw [if_pos hfl]
    by_cases hfit : width ≥ g.width
    · rw [if_pos hfit]
      exact Or.inr ⟨rfl, hfl.1⟩
    · rw [if_neg hfit]
      exact Or.inr ⟨rfl, hfl.1⟩
  · rw [if_neg hfl]
    by_cases hfit : width ≥ g.width
    · rw [if_pos hfit]
      exact Or.inl rfl
    · rw [if_neg hfit]
      exact Or.inl rfl

theorem wrap_foldl_rows_nonempty (width : Nat) :
    ∀ (s : StyledGraphemes) (all : List StyledGraphemes) (row : StyledGraphemes),
      (∀ r ∈ all, r ≠ []) →
        ∀ r ∈ (s.foldl (wrapStep width) (all, row)).1, r ≠ [] := by
  intro s
  induction s with
  | nil => intro all row hall; simpa using hall
  | cons g rest ih =>
    intro all row hall
    have hstep : ∀ r ∈ (wrapStep width (all, row) g).1, r ≠ [] := by
      rcases wrapStep_fst_cases width all row g with hc | ⟨hc, hrow⟩
      · rw [hc]
        exact hall
      · rw [hc]
        intro r hr
        rcases List.mem_append.mp hr with h1 | h2
        · exact hall r h1
        · rw [List.mem_singleton.mp h2]
          exact hrow
    have ih' := ih (wrapStep width (all, row) g).1 (wrapStep width (all, row) g).2 hstep
    rw [Prod.mk.eta] at ih'
    rw [List.foldl_cons]
    exact ih'

theorem matrixifyWrap_rows_nonempty (width : Nat) (s : StyledGraphemes) :
    ∀ r ∈ matrixifyWrap width s, r ≠ [] := by
  unfold matrixifyWrap
  have hfold := wrap_foldl_rows_nonempty width s [] [] (by simp)
  dsimp only
  split
  · next hne =>
    intro r hr
    rcases List.mem_append.mp hr with h1 | h2
    · exact hfold r h1
    · rw [List.mem_singleton.mp h2]
      exact hne
  · next hne => exact hfold

theorem length_le_flatten_length {α : Type} :
    ∀ (L : List (List α)), (∀ r ∈ L, r ≠ []) → L.length ≤ L.flatten.length := by
  intro L
  induction L with
  | nil => intro _; simp
  | cons r rest ih =>
    intro h
    have hr : r ≠ [] := h r (List.mem_cons_self r rest)
    have : 1 ≤ r.length := by
      cases r with
      | nil => exact absurd rfl hr
      | cons a t => simp
    have hrest := ih fun x hx => h x (List.mem_cons_of_mem r hx)
    simp only [List.length_cons, List.flatten_cons, List.length_append]
    omega

theorem trimRows_of_le (height : Nat) (fuel : Nat) (all : List StyledGraphemes)
    (offset : Nat) (h : all.length ≤ height) :
    trimRows height fuel all offset = (all, offset) := by
  cases fuel with
  | zero => rfl
  | succ fuel =>
    unfold trimRows
    rw [if_neg]
    rintro ⟨h1, -⟩
    omega

/-- C1: for any width `w ≥ 1`, wrapping with unbounded height (any
height of at least the sequence length) and offset 0 never splits a
grapheme: concatenating all returned rows yields the sequence itself,
with exactly the graphemes wider than `w` dropped. -/
theorem matrixify_concat_rows (s : StyledGraphemes) (w h : Nat)
    (_hw : 1 ≤ w) (hh : s.length ≤ h) :
    ((s.matrixify w h 0).1).flatten = s.filter (fun g => g.width ≤ w) := by
  unfold StyledGraphemes.matrixify
  dsimp only
  split
  · next hall =>
    have := matrixifyWrap_flatten w s
    rw [hall] at this
    simpa using this.symm
  · next hall =>
    have hrows : (matrixifyWrap w s).length ≤ h := by
      calc (matrixifyWrap w s).length
        ≤ (matrixifyWrap w s).flatten.length :=
          length_le_flatten_length _ (matrixifyWrap_rows_nonempty w s)
        _ = (s.filter (fun g => g.width ≤ w)).length := by
            rw [matrixifyWrap_flatten]
        _ ≤ s.length := List.length_filter_le _ s
        _ ≤ h := hh
    rw [Nat.zero_min, trimRows_of_le _ _ _ _ hrows]
    exact matrixifyWrap_flatten w s

/-- C1 witness: at width 1 the width-2 grapheme is dropped and the
single-column rows concatenate back to the surviving grapheme. -/
theorem matrixify_concat_rows_witness :
    (StyledGraphemes.matrixify [⟨'a', 1, {}⟩, ⟨'中', 2, {}⟩, ⟨'b', 1, {}⟩] 1 3 0).1.flatten =
      [(⟨'a', 1, {}⟩ : StyledGrapheme), ⟨'b', 1, {}⟩] := by
  have h := matrixify_concat_rows
    [⟨'a', 1, {}⟩, ⟨'中', 2, {}⟩, ⟨'b', 1, {}⟩] 1 3 (by decide) (by decide)
  rw [h]
  decide

theorem trimRows_zero_offset (height : Nat) :
    ∀ (fuel : Nat) (all : List StyledGraphemes), all.length ≤ fuel →
      trimRows height fuel all 0 = (all.take height, 0) := by
  intro fuel
  induction fuel with
  | zero =>
    intro all hf
    have : all = [] := List.length_eq_zero.mp (Nat.le_zero.mp hf)
    subst this
    simp [trimRows]
  | succ fuel ih =>
    intro all hf
    unfold trimRows
    by_cases hc : all.length > height ∧ 0 < all.length
    · rw [if_pos hc]
      simp only [gt_iff_lt, Nat.lt_irrefl, if_neg, Nat.not_lt_zero, not_false_iff]
      rw [ih all.dropLast (by simp only [List.length_dropLast]; omega)]
      rw [List.dropLast_eq_take, List.take_take]
      have : min height (all.length - 1) = height := by omega
      rw [this]
    · rw [if_neg hc]
      rcases Nat.lt_or_ge all.length (height + 1) with hle | hgt
      · rw [List.take_of_length_le (by omega)]
      · exfalso
        exact hc ⟨by omega, by omega⟩

theorem trimRows_closed_form (height : Nat) :
    ∀ (offset fuel : Nat) (all : List StyledGraphemes),
      all.length ≤ fuel → offset < all.length →
      trimRows height fuel all offset =
        ((all.drop (min offset (all.length - height))).take height,
          offset - min offset (all.length - height)) := by
  intro offset
  induction offset with
  | zero =>
    intro fuel all hf _ho
    simpa using trimRows_zero_offset height fuel all hf
  | succ off ih =>
    intro fuel all hf ho
    have hpos : 0 < all.length := by omega
    cases fuel with
    | zero => omega
    | succ fuel =>
      unfold trimRows
      by_cases hh : all.length > height
      · rw [if_pos ⟨hh, ho⟩, if_pos (Nat.succ_pos off)]
        simp only [Nat.add_sub_cancel]
        have htl : all.tail.length ≤ fuel := by
          simp only [List.length_tail]
          omega
        have hol : off < all.tail.length := by
          simp only [List.length_tail]
          omega
        rw [ih fuel all.tail htl hol]
        have hm : min (off + 1) (all.length - height) =
            min off (all.tail.length - height) + 1 := by
          simp only [List.length_tail]
          omega
        rw [hm]
        have hdrop : all.tail.drop (min off (all.tail.length - height)) =
            all.drop (min off (all.tail.length - height) + 1) := by
          simp [List.drop_drop]
        rw [hdrop]
        have hoff : off - min off (all.tail.length - height) =
            off + 1 - (min off (all.tail.length - height) + 1) := by
          omega
        rw [hoff]
      · rw [if_neg (by rintro ⟨h1, -⟩; omega)]
        have hmin : min (off + 1) (all.length - height) = 0 := by omega
        rw [hmin, List.drop_zero, List.take_of_length_le (by omega), Nat.sub_zero]

/-- C7 (counterexample): with ten width-1 graphemes, width 2, height 2
and offset 100, `matrixify` returns the remaining offset 1 — the offset
is clamped to `rows - 1 = 4` before the discard loop — while the
claimed front-then-back discard process (which never clamps) would
return remaining offset 97. -/
theorem matrixify_offset_clamp_counterexample :
    StyledGraphemes.matrixify (StyledGraphemes.fromString "1234567890") 2 2 100 ≠
      matrixifySpecTrim (StyledGraphemes.fromString "1234567890") 2 2 100 := by
  decide

/-- C7 (amended): when the wrapped rows exceed `height`, `matrixify`
first clamps the offset to `rows - 1`, then discards rows from the front
(decrementing the clamped offset each time) until the offset is spent or
`height` rows remain, then discards from the back, returning the
surviving rows and the remaining offset — the closed form
`matrixifyScroll`. -/
theorem matrixify_scroll_model (s : StyledGraphemes) (w h off : Nat)
    (hh : h < (matrixifyWrap w s).length) :
    s.matrixify w h off = matrixifyScroll s w h off := by
  unfold StyledGraphemes.matrixify matrixifyScroll
  dsimp only
  rw [if_neg (by intro hc; rw [hc] at hh; simp at hh)]
  exact trimRows_closed_form h (min off ((matrixifyWrap w s).length - 1))
    (matrixifyWrap w s).length (matrixifyWrap w s) (Nat.le_refl _) (by omega)

/-- C7 witness: `"1234567890"` wrapped at width 2 gives five rows; with
height 2 and offset 1 the first row is discarded for the offset, the
last two fall off the back, and rows `"34"`, `"56"` survive with offset
0 — exactly the `test_with_offset` case of `grapheme.rs`. -/
theorem matrixify_scroll_model_witness :
    StyledGraphemes.matrixify (StyledGraphemes.fromString "1234567890") 2 2 1 =
      ([StyledGraphemes.fromString "34", StyledGraphemes.fromString "56"], 0) := by
  have h := matrixify_scroll_model (StyledGraphemes.fromString "1234567890") 2 2 1 (by decide)
  rw [h]
  decide

theorem replaceRange_eq_splice (s : StyledGraphemes) (p k : Nat) (t : String)
    (hb : p + k ≤ s.length) :
    s.replaceRange p (p + k) t =
      s.take p ++ StyledGraphemes.fromString t ++ s.drop (p + k) := by
  unfold StyledGraphemes.replaceRange
  have h1 : p + (p + k - p) = p + k := by omega
  rw [h1]
  dsimp only
  have hlen : (s.take p).length = p := by
    rw [List.length_take]
    omega
  rw [List.take_left' hlen, List.drop_left' hlen]

theorem replaceRange_length (s : StyledGraphemes) (p k : Nat) (t : String)
    (hk : t.data.length = k) (hb : p + k ≤ s.length) :
    (s.replaceRange p (p + k) t).length = s.length := by
  rw [replaceRange_eq_splice s p k t hb]
  simp only [List.length_append, List.length_take, List.length_drop,
    StyledGraphemes.fromString, List.length_map]
  omega

theorem replaceRange_getElem? (s : StyledGraphemes) (p k : Nat) (t : String)
    (hk : t.data.length = k) (hb : p + k ≤ s.length) (j : Nat) :
    (s.replaceRange p (p + k) t)[j]? =
      if p ≤ j ∧ j < p + k then (t.data[j - p]?).map StyledGrapheme.fromChar
      else s[j]? := by
  rw [replaceRange_eq_splice s p k t hb]
  have htake : (s.take p).length = p := by
    rw [List.length_take]
    omega
  have hfrom : (StyledGraphemes.fromString t).length = k := by
    simpa [StyledGraphemes.fromString] using hk
  rcases Nat.lt_or_ge j p with hj | hj
  · rw [if_neg (by omega)]
    rw [List.getElem?_append_left (by simp [htake, hfrom]; omega)]
    rw [List.getElem?_append_left (by omega : j < (s.take p).length)]
    rw [List.getElem?_take]
    exact if_pos hj
  · rcases Nat.lt_or_ge j (p + k) with hj2 | hj2
    · rw [if_pos ⟨hj, hj2⟩]
      rw [List.getElem?_append_left (by simp [htake, hfrom]; omega)]
      rw [List.getElem?_append_right (by omega : (s.take p).length ≤ j)]
      rw [htake, StyledGraphemes.fromString, List.getElem?_map]
    · rw [if_neg (by omega)]
      rw [List.getElem?_append_right (by simp [htake, hfrom]; omega)]
      simp only [List.length_append, htake, hfrom, List.getElem?_drop]
      congr 1
      omega

theorem lastCover_cons (p : Nat) (ps : List Nat) (k j : Nat) :
    lastCover (p :: ps) k j =
      match lastCover ps k j with
      | some q => some q
      | none => if p ≤ j ∧ j < p + k then some p else none := by
  unfold lastCover
  rw [List.filter_cons]
  by_cases hc : p ≤ j ∧ j < p + k
  · rw [if_pos (by simpa using hc)]
    cases hf : ps.filter fun q => decide (q ≤ j ∧ j < q + k) with
    | nil => simp [hc]
    | cons a l =>
      have : (p :: a :: l).getLast? = (a :: l).getLast? := rfl
      rw [this]
      cases h2 : (a :: l).getLast? with
      | none => simp at h2
      | some x => simp
  · rw [if_neg (by simpa using hc)]
    cases hf : (ps.filter fun q => decide (q ≤ j ∧ j < q + k)).getLast? with
    | none => simp [hc]
    | some x => simp

theorem foldl_overwrite_length (t : String) (k : Nat) (hk : t.data.length = k) :
    ∀ (ps : List Nat) (s : StyledGraphemes), (∀ p ∈ ps, p + k ≤ s.length) →
      (ps.foldl (fun cur p => cur.replaceRange p (p + k) t) s).length = s.length := by
  intro ps
  induction ps with
  | nil => intro s _; rfl
  | cons p rest ih =>
    intro s hb
    have hp := hb p (List.mem_cons_self p rest)
    have h1 := replaceRange_length s p k t hk hp
    rw [List.foldl_cons, ih _ (by intro q hq; rw [h1]; exact hb q (List.mem_cons_of_mem p hq))]
    exact h1

theorem foldl_overwrite_getElem? (t : String) (k : Nat) (hk : t.data.length = k) :
    ∀ (ps : List Nat) (s : StyledGraphemes), (∀ p ∈ ps, p + k ≤ s.length) →
      ∀ j : Nat,
        (ps.foldl (fun cur p => cur.replaceRange p (p + k) t) s)[j]? =
          match lastCover ps k j with
          | some p => (t.data[j - p]?).map StyledGrapheme.fromChar
          | none => s[j]? := by
  intro ps
  induction ps with
  | nil => intro s _ j; simp [lastCover]
  | cons p rest ih =>
    intro s hb j
    have hp := hb p (List.mem_cons_self p rest)
    have h1 := replaceRange_length s p k t hk hp
    rw [List.foldl_cons,
      ih _ (by intro q hq; rw [h1]; exact hb q (List.mem_cons_of_mem p hq)) j,
      lastCover_cons]
    cases hl : lastCover rest k j with
    | some q => rfl
    | none =>
      simp only
      rw [replaceRange_getElem? s p k t hk hp j]
      by_cases hc : p ≤ j ∧ j < p + k
      · simp [hc]
      · simp [hc]

theorem findAll_bounds (s : StyledGraphemes) (q : List Char) :
    ∀ p ∈ s.findAll q, p + q.length ≤ s.length := by
  intro p hp
  unfold StyledGraphemes.findAll at hp
  by_cases he : q.isEmpty
  · rw [if_pos he] at hp
    simp at hp
  · rw [if_neg he] at hp
    exact ((findAllFrom_mem s q (s.length + 1) 0 p (by omega)).mp hp).2.1

theorem replace_foldl_of_length_eq (s : StyledGraphemes) (f t : String)
    (h : f.data.length = t.data.length) :
    s.replace f t =
      (s.findAll f.data).foldl
        (fun cur p => cur.replaceRange p (p + f.data.length) t) s := by
  unfold StyledGraphemes.replace
  have main : ∀ (ps : List Nat) (s0 : StyledGraphemes),
      (ps.foldl (replaceStep f.data.length t.data.length t) (s0, 0)).1 =
        ps.foldl (fun cur p => cur.replaceRange p (p + f.data.length) t) s0 := by
    intro ps
    induction ps with
    | nil => intro s0; rfl
    | cons p rest ih =>
      intro s0
      rw [List.foldl_cons, List.foldl_cons]
      have hstep : replaceStep f.data.length t.data.length t (s0, 0) p =
          (s0.replaceRange p (p + f.data.length) t, 0) := by
        unfold replaceStep
        rw [if_neg (by omega), Nat.sub_zero]
        rw [show max f.data.length t.data.length - min f.data.length t.data.length = 0
          from by omega]
      rw [hstep, ih]
  exact main (s.findAll f.data) s

/-- C3 (counterexample): `replace("aba", "xyz")` on `"ababa"` rewrites
both overlapping occurrences found by `find_all` (positions 0 and 2),
producing `"xyxyz"`, not the `"xyzba"` that "affects position 0 only"
would give. -/
theorem replace_overlap_counterexample :
    StyledGraphemes.chars
        (StyledGraphemes.replace (StyledGraphemes.fromString "ababa") "aba" "xyz") =
      "xyxyz".data ∧ "xyxyz".data ≠ "xyzba".data := by
  refine ⟨by decide, by decide⟩

/-- C3 (amended): `replace(from, to)` rewrites the sequence at every
position returned by `find_all` (which retains overlapping matches),
left to right at offset-adjusted positions.  When `|from| = |to|` the
offsets vanish and the result is characterized pointwise: index `j`
holds `to[j - p]` (default-styled) for the last found position `p`
whose window covers `j`, and the original grapheme elsewhere; the
length never changes. -/
theorem replace_equal_length_spec (s : StyledGraphemes) (f t : String)
    (h : f.data.length = t.data.length) :
    (s.replace f t).length = s.length ∧
      ∀ j : Nat,
        (s.replace f t)[j]? =
          match lastCover (s.findAll f.data) f.data.length j with
          | some p => (t.data[j - p]?).map StyledGrapheme.fromChar
          | none => s[j]? := by
  have hk : t.data.length = f.data.length := h.symm
  have hb := findAll_bounds s f.data
  rw [replace_foldl_of_length_eq s f t h]
  exact ⟨foldl_overwrite_length t f.data.length hk (s.findAll f.data) s hb,
    fun j => foldl_overwrite_getElem? t f.data.length hk (s.findAll f.data) s hb j⟩

/-- C3 witness: in `"ababa".replace("aba", "xyz")` index 3 is covered
last by the overlapping occurrence at position 2, so it holds `'y'`
(`to[3 - 2]`) — the claim's "position 0 only" would have left `'b'`
there. -/
theorem replace_equal_length_spec_witness :
    (StyledGraphemes.replace (StyledGraphemes.fromString "ababa") "aba" "xyz")[3]? =
      some (StyledGrapheme.fromChar 'y') := by
  have h := (replace_equal_length_spec (StyledGraphemes.fromString "ababa") "aba" "xyz"
    (by decide)).2 3
  rw [h]
  decide

/-- C10: `Checkbox::toggle` never touches the listbox (items and cursor
position), and it is an involution on the picked set: toggling twice
restores the original picked set. -/
theorem checkbox_toggle_frame_involution (c : Checkbox) :
    (Checkbox.toggle c).listbox = c.listbox ∧
      (Checkbox.toggle (Checkbox.toggle c)).picked = c.picked := by
  unfold Checkbox.toggle
  by_cases h : c.listbox.position ∈ c.picked
  · simp [h, Finset.insert_erase h]
  · simp [h, Finset.erase_insert h]

end Promkit
